import Mathlib

/-!
Verification of the CodePilot core pipeline (segmenter, chunker, vector
index, retriever) against its natural-language specification.

The Python sources are shallowly embedded: strings are `List Char`,
floats that carry exact values (distances, scores) are `ℚ`, Python dicts
with a fixed key set become structures with `Option` fields for keys that
may be absent, and file-system reads are passed in as explicit inputs.
Each definition is annotated with the source function it embeds.
-/

namespace CodePilot

/-- A line of text (no newline characters inside). -/
abbrev Line := List Char

/-- A piece of text, as a character list. -/
abbrev Text := List Char

/-- Python `s.startswith(pat)` on character lists. -/
def startsWith (pat l : List Char) : Bool := l.take pat.length == pat

/-- Python `s.lstrip()`: drop leading whitespace. -/
def lstrip (l : List Char) : List Char := l.dropWhile Char.isWhitespace

/-- Python `' ' * n`. -/
def spaces (n : Nat) : List Char := List.replicate n ' '

def nlChar : Char := '\n'

/-- The one-character separator `"\n"` used by `'\n'.join`. -/
def nl : List Char := ['\n']

/-- The separator `"\n\n"` used by `'\n\n'.join` in `_chunk_text`. -/
def nl2 : List Char := ['\n', '\n']

def atStr : List Char := ['@']

def defKw : List Char := "def ".toList

def classKw : List Char := "class ".toList

def classStr : List Char := "class".toList

def functionStr : List Char := "function".toList

def rawTextStr : List Char := "raw_text".toList

/-! ## Chunker (src/codepilot/processors/chunker.py)

`Chunker` stores `chunk_size` and `chunk_overlap`; the overlap is never
used by any splitting path, so the embeddings below take only the chunk
size `cs`. -/

/-- Embeds `Chunker._simple_chunk_by_size`: if the content fits, one chunk;
otherwise `content[i:i+cs]` for `i in range(0, len(content), cs)`.
For `cs ≥ 1`, `range(0, n, cs)` has `⌈n / cs⌉` elements (Python raises
`ValueError` on step 0, so `cs = 0` never reaches the loop). -/
def simple_chunk_by_size (cs : Nat) (content : Text) : List Text :=
  if content.length ≤ cs then [content]
  else (List.range ((content.length + cs - 1) / cs)).map
    (fun i => (content.drop (i * cs)).take cs)

/-- The boundary test of `Chunker._chunk_code` (lines 111-113): a line
starting with `'@'`, or a line whose stripped form starts with `"def "`
or `"class "` and whose own text does not start with `indent_level + 4`
spaces.  In the source, `indent_level` is `None` only while every line so
far was blank, and a blank line never strips to a `def `/`class ` prefix,
so the `none` case of the second and third disjunct is unreachable; it is
rendered with `Option.getD 0`. -/
def isBoundary (line : List Char) (indentLevel : Option Nat) : Bool :=
  startsWith atStr line ||
  (startsWith defKw (lstrip line) &&
    !(startsWith (spaces (indentLevel.getD 0 + 4)) line)) ||
  (startsWith classKw (lstrip line) &&
    !(startsWith (spaces (indentLevel.getD 0 + 4)) line))

/-- Lines 105-108 of `Chunker._chunk_code`: `indent_level` is set from
the first non-blank line and kept thereafter. -/
def updateIndent (line : Line) (indentLevel : Option Nat) : Option Nat :=
  if lstrip line ≠ [] ∧ indentLevel = none then
    some (line.length - (lstrip line).length)
  else indentLevel

/-- The line loop of `Chunker._chunk_code` (lines 100-132), producing the
chunks as lists of lines; the source joins each flushed chunk with
`'\n'.join` at flush time, which `chunk_code` below performs by mapping
`List.intercalate nl` over the result.  The state is the accumulated
`chunks`, the `current_chunk`, its `current_size`, and `indent_level`.
The comparison `current_size + line_size > chunk_size * 1.5` on integers
is the exact test `2 * (size + lineSize) > 3 * cs`.  After the boundary
flush the current chunk is empty, so the size flush cannot also fire. -/
def codeLoop (cs : Nat) : List Line → List (List Line) → List Line → Nat →
    Option Nat → List (List Line)
  | [], chunks, current, _, _ =>
    if current = [] then chunks else chunks ++ [current]
  | line :: rest, chunks, current, size, indentLevel =>
    let lineSize := line.length + 1
    let indent1 := updateIndent line indentLevel
    if isBoundary line indent1 ∧ current ≠ [] then
      codeLoop cs rest (chunks ++ [current]) [line] lineSize indent1
    else if 2 * (size + lineSize) > 3 * cs ∧ current ≠ [] then
      codeLoop cs rest (chunks ++ [current]) [line] lineSize indent1
    else
      codeLoop cs rest chunks (current ++ [line]) (size + lineSize) indent1

/-- The boundary-aware splitting pass of `_chunk_code` applied to a
content string: split into lines and run the loop. -/
def chunkCodeBlocks (cs : Nat) (content : Text) : List (List Line) :=
  codeLoop cs (content.splitOn nlChar) [] [] 0 none

/-- Embeds `Chunker._chunk_code`: small content is returned whole; a function
within twice the chunk size is returned whole; otherwise the line loop
runs, followed by the defensive fallback to size-based slicing when it
produced no chunks. -/
def chunk_code (cs : Nat) (ty : List Char) (content : Text) : List Text :=
  if content.length ≤ cs then [content]
  else if ty = functionStr ∧ content.length ≤ cs * 2 then [content]
  else
    let chunks := (chunkCodeBlocks cs content).map (List.intercalate nl)
    if chunks = [] then simple_chunk_by_size cs content else chunks

/-- Python `text.split("\n\n")`: split on non-overlapping occurrences of
two consecutive newlines, scanning left to right.  `acc` holds the
current piece reversed. -/
def splitPara (acc : List Char) : List Char → List (List Char)
  | [] => [acc.reverse]
  | [c] => [(c :: acc).reverse]
  | c₁ :: c₂ :: rest =>
    if c₁ = nlChar ∧ c₂ = nlChar then acc.reverse :: splitPara [] rest
    else splitPara (c₁ :: acc) (c₂ :: rest)

/-- Whether `c` closes a sentence, for the regex `(?<=[.!?])\s+`. -/
def isSentenceEnd : Option Char → Bool
  | some '.' => true
  | some '!' => true
  | some '?' => true
  | _ => false

/-- Python `re.split(r'(?<=[.!?])\s+', para)`: a maximal whitespace run
whose preceding character is `.`, `!` or `?` separates sentences and is
consumed.  `acc` holds the current sentence reversed, so `acc.head?` is
the previously scanned character. -/
def sentenceSplit (acc : List Char) : List Char → List (List Char)
  | [] => [acc.reverse]
  | c :: rest =>
    if c.isWhitespace ∧ isSentenceEnd acc.head? then
      acc.reverse :: sentenceSplit [] (rest.dropWhile Char.isWhitespace)
    else sentenceSplit (c :: acc) rest
termination_by l => l.length
decreasing_by
  · exact Nat.lt_succ_of_le (List.dropWhile_suffix _).sublist.length_le
  · simp

/-- The sentence loop of `Chunker._chunk_text` (lines 201-223), returning
the updated `(chunks, current_chunk, current_size)` state.  An oversized
sentence is sliced by `simple_chunk_by_size` and appended directly; note
that when `s_size > cs` the preceding flush already emptied the current
chunk, so the inner `if current:` flush of the source is a no-op that is
kept verbatim. -/
def sentenceLoop (cs : Nat) : List Text → List Text → List Text → Nat →
    List Text × List Text × Nat
  | [], chunks, current, size => (chunks, current, size)
  | s :: rest, chunks, current, size =>
    let sSize := s.length + 1
    let flushed := if size + sSize > cs ∧ current ≠ [] then
        (chunks ++ [List.intercalate nl2 current], ([] : List Text), 0)
      else (chunks, current, size)
    match flushed with
    | (chunks1, current1, size1) =>
      if sSize > cs then
        let chunks2 := if current1 ≠ [] then
            chunks1 ++ [List.intercalate nl2 current1] else chunks1
        sentenceLoop cs rest (chunks2 ++ simple_chunk_by_size cs s) [] 0
      else
        sentenceLoop cs rest chunks1 (current1 ++ [s]) (size1 + sSize)

/-- The paragraph loop of `Chunker._chunk_text` (lines 187-230),
including the final flush of the current chunk. -/
def paragraphLoop (cs : Nat) : List Text → List Text → List Text → Nat →
    List Text
  | [], chunks, current, _ =>
    if current = [] then chunks
    else chunks ++ [List.intercalate nl2 current]
  | para :: rest, chunks, current, size =>
    let paraSize := para.length + 2
    let flushed := if size + paraSize > cs ∧ current ≠ [] then
        (chunks ++ [List.intercalate nl2 current], ([] : List Text), 0)
      else (chunks, current, size)
    match flushed with
    | (chunks1, current1, size1) =>
      if paraSize > cs then
        match sentenceLoop cs (sentenceSplit [] para) chunks1 current1 size1 with
        | (chunks2, current2, size2) => paragraphLoop cs rest chunks2 current2 size2
      else
        paragraphLoop cs rest chunks1 (current1 ++ [para]) (size1 + paraSize)

/-- Embeds `Chunker._chunk_text`: text that fits is returned whole; otherwise it
is split into paragraphs on `"\n\n"` and accumulated by the paragraph
loop. -/
def chunk_text (cs : Nat) (text : Text) : List Text :=
  if text.length ≤ cs then [text]
  else paragraphLoop cs (splitPara [] text) [] [] 0

/-! ## Data model shared by the parser, chunker, vector store, retriever

A metadata record is a Python dict.  The embeddings model it as a
structure with one field per key the source ever writes or reads; keys
that are only sometimes present (`line_range`, `content`, `chunk_index`,
`total_chunks`) are `Option`-valued, with `none` for an absent key. -/

structure Meta where
  file_path : List Char
  ty : List Char
  name : List Char
  docstring : List Char
  methods : List (List Char)
  bases : List (List Char)
  arguments : List (List Char)
  line_range : Option (Nat × Nat)
  content : Option Text
  chunk_index : Option Nat
  total_chunks : Option Nat
deriving DecidableEq, Repr

/-- A metadata record carrying only a file path and a type, every other
key absent: the shape of the parser's raw-text fallback record. -/
def baseMeta (fp ty : List Char) : Meta :=
  { file_path := fp, ty := ty, name := [], docstring := [], methods := [],
    bases := [], arguments := [], line_range := none, content := none,
    chunk_index := none, total_chunks := none }

/-- A document as produced by the parser and consumed by the chunker and
the vector store: `{"content": ..., "metadata": ...}`. -/
structure Doc where
  content : Text
  metadata : Meta
deriving DecidableEq, Repr

/-! ## Chunker driver (`Chunker.chunk_documents`) -/

/-- Embeds `Chunker.chunk_documents`: each document is split by `_chunk_code`
when its metadata type is `"class"` or `"function"` and by `_chunk_text`
otherwise, and every chunk receives a copy of the metadata stamped with
`chunk_index` and `total_chunks`. -/
def chunk_documents (cs : Nat) (docs : List Doc) : List Doc :=
  (docs.map (fun doc =>
    let cks := if doc.metadata.ty = classStr ∨ doc.metadata.ty = functionStr
      then chunk_code cs doc.metadata.ty doc.content
      else chunk_text cs doc.content
    cks.enum.map (fun p =>
      { content := p.2,
        metadata := { doc.metadata with
          chunk_index := some p.1, total_chunks := some cks.length } }))).flatten

/-! ## Segmenter (src/codepilot/processors/ast_parser.py)

A Python statement tree.  `ast.ClassDef` and `ast.FunctionDef` nodes
carry their structural facts directly (name, positions, base names of
`ast.Name` bases, argument names, docstring); every other statement kind
is `other`, keeping only its child statements.  Expression subtrees are
omitted: `ast.FunctionDef`/`ast.ClassDef` are statements and never occur
below an expression, so the walk of the source finds the same class and
function nodes. -/

inductive PyNode where
  | classDef (name : List Char) (lineno endLineno : Nat)
      (bases : List (List Char)) (docstring : List Char)
      (body : List PyNode)
  | funcDef (name : List Char) (lineno endLineno : Nat)
      (args : List (List Char)) (docstring : List Char)
      (body : List PyNode)
  | other (lineno endLineno : Nat) (body : List PyNode)

/-- An `ast.Module`: the top-level statement list. -/
structure PyModule where
  body : List PyNode

/-- The child statements of a node (`ast.iter_child_nodes`, restricted
to statements as explained above). -/
def nodeChildren : PyNode → List PyNode
  | .classDef _ _ _ _ _ body => body
  | .funcDef _ _ _ _ _ body => body
  | .other _ _ body => body

mutual
/-- Structural size of a node, used as the walk termination measure. -/
def nodeSize : PyNode → Nat
  | .classDef _ _ _ _ _ body => 1 + nodesSize body
  | .funcDef _ _ _ _ _ body => 1 + nodesSize body
  | .other _ _ body => 1 + nodesSize body
/-- Structural size of a statement list. -/
def nodesSize : List PyNode → Nat
  | [] => 0
  | n :: rest => nodeSize n + nodesSize rest
end

mutual
/-- Python `max(child.end_lineno for child in ast.walk(node))`: the walk of a
node includes the node itself, so its own `end_lineno` participates. -/
def maxEnd : PyNode → Nat
  | .classDef _ _ e _ _ body => max e (maxEnds body)
  | .funcDef _ _ e _ _ body => max e (maxEnds body)
  | .other _ e body => max e (maxEnds body)
/-- Maximum `end_lineno` over a list of subtrees (0 when empty). -/
def maxEnds : List PyNode → Nat
  | [] => 0
  | n :: rest => max (maxEnd n) (maxEnds rest)
end

/-- The name of a node when it is an `ast.FunctionDef`. -/
def funcName : PyNode → Option (List Char)
  | .funcDef name _ _ _ _ _ => some name
  | _ => none

/-- Python `content.split('\n')[start-1:end]` joined back with
`'\n'.join`, the source extraction shared by `_process_class` and
`_process_function`. -/
def sourceSlice (content : Text) (startLine endLine : Nat) : Text :=
  List.intercalate nl
    (((content.splitOn nlChar).drop (startLine - 1)).take
      (endLine - (startLine - 1)))

/-- Embeds `AstParser._process_class`. -/
def process_class (fp : List Char) (content : Text) (name : List Char)
    (lineno endLineno : Nat) (bases : List (List Char))
    (docstring : List Char) (body : List PyNode) : Doc :=
  let startLine := lineno
  let endLine := maxEnd (.classDef name lineno endLineno bases docstring body)
  { content := sourceSlice content startLine endLine,
    metadata := { baseMeta fp classStr with
      name := name, docstring := docstring,
      methods := body.filterMap funcName, bases := bases,
      line_range := some (startLine, endLine) } }

/-- Embeds `AstParser._process_function`. -/
def process_function (fp : List Char) (content : Text) (name : List Char)
    (lineno endLineno : Nat) (args : List (List Char))
    (docstring : List Char) (body : List PyNode) : Doc :=
  let startLine := lineno
  let endLine := maxEnd (.funcDef name lineno endLineno args docstring body)
  { content := sourceSlice content startLine endLine,
    metadata := { baseMeta fp functionStr with
      name := name, docstring := docstring, arguments := args,
      line_range := some (startLine, endLine) } }

/-- The documents the node loop of `AstParser.parse_file` (lines 116-129)
emits for one walked node.  The Boolean records whether the node's parent
is the `ast.Module` (the parent reference installed by `NodeVisitor`):
class definitions are processed at any depth, function definitions only
when the parent is the module. -/
def emitDocs (fp : List Char) (content : Text) : PyNode → Bool → List Doc
  | .classDef name l e bases ds body, _ =>
    [process_class fp content name l e bases ds body]
  | .funcDef name l e args ds body, topLevel =>
    if topLevel then [process_function fp content name l e args ds body]
    else []
  | .other _ _ _, _ => []

/-- Size of a walk queue, the termination measure of `walkCollect`. -/
def queueSize : List (PyNode × Bool) → Nat
  | [] => 0
  | p :: rest => nodeSize p.1 + queueSize rest

theorem nodeSize_eq_children (n : PyNode) :
    nodeSize n = 1 + nodesSize (nodeChildren n) := by
  cases n <;> rfl

theorem queueSize_append (a b : List (PyNode × Bool)) :
    queueSize (a ++ b) = queueSize a + queueSize b := by
  induction a with
  | nil => simp [queueSize]
  | cons p rest ih => simp [queueSize, ih]; omega

theorem queueSize_map_false (l : List PyNode) :
    queueSize (l.map (fun c => (c, false))) = nodesSize l := by
  induction l with
  | nil => rfl
  | cons n rest ih => simp [queueSize, nodesSize, ih]

/-- The breadth-first walk of `ast.walk` combined with the node loop of
`parse_file`: pop a node, emit its documents, push its children (whose
parent is that node, hence not the module) at the back of the queue. -/
def walkCollect (fp : List Char) (content : Text) :
    List (PyNode × Bool) → List Doc
  | [] => []
  | (n, topLevel) :: rest =>
    emitDocs fp content n topLevel ++
      walkCollect fp content (rest ++ (nodeChildren n).map (fun c => (c, false)))
termination_by q => queueSize q
decreasing_by
  simp only [queueSize, queueSize_append, queueSize_map_false]
  have := nodeSize_eq_children n
  omega

/-- Embeds `AstParser.parse_file`, with the result of `ast.parse` supplied as an
input: `none` models a `SyntaxError`, in which case the raw-text fallback
record is returned; otherwise the parent-annotated tree is walked.  The
module node itself is walked first by `ast.walk` but is neither a class
nor a function, so it emits nothing; its children enter the queue flagged
as top level. -/
def parse_file (fp : List Char) (tree : Option PyModule) (content : Text) :
    List Doc :=
  match tree with
  | none => [{ content := content, metadata := baseMeta fp rawTextStr }]
  | some m => walkCollect fp content (m.body.map (fun n => (n, true)))

/-! ## Vector store (src/codepilot/vector_db/faiss_store.py)

Vectors are lists of rationals; a `numpy` embedding matrix carries its
column count (`shape[1]`) alongside its rows.  The FAISS `IndexFlatL2`
is its fixed dimension plus the stored vectors in insertion order. -/

structure NpMatrix where
  dim : Nat
  rows : List (List ℚ)
deriving DecidableEq, Repr

structure FaissIndex where
  d : Nat
  vectors : List (List ℚ)
deriving DecidableEq, Repr

/-- In-memory state of `FaissVectorStore`: the optional FAISS index, the
parallel metadata list, and the configured dimension. -/
structure FaissStore where
  index : Option FaissIndex
  metadata : List Meta
  dimension : Nat
deriving DecidableEq, Repr

/-- Python `index.ntotal` (0 when the index is `None`). -/
def FaissStore.ntotal (st : FaissStore) : Nat :=
  match st.index with
  | none => 0
  | some idx => idx.vectors.length

inductive StoreErr where
  | dimensionMismatch
deriving DecidableEq, Repr

/-- Embeds `FaissVectorStore.add_documents`.  When the index is `None` the
dimension is taken from `embeddings.shape[1]` and an empty index is
created.  The metadata of every document is appended FIRST (lines
76-77); only then does `self.index.add(embeddings)` run, and the FAISS
Python wrapper asserts `embeddings.shape[1] == index.d` before storing
anything, raising on a mismatch.  The pair returned is the state as left
behind and the error, if any, of the call. -/
def add_documents (st : FaissStore) (docs : List Doc) (embs : NpMatrix) :
    FaissStore × Option StoreErr :=
  let st0 := match st.index with
    | none => { st with dimension := embs.dim,
                        index := some { d := embs.dim, vectors := [] } }
    | some _ => st
  let st1 := { st0 with metadata := st0.metadata ++ docs.map Doc.metadata }
  match st0.index with
  | some idx =>
    if embs.dim = idx.d then
      ({ st1 with index := some { d := idx.d, vectors := idx.vectors ++ embs.rows } },
        none)
    else (st1, some StoreErr.dimensionMismatch)
  | none =>
    -- unreachable: st0.index is always some, the `None` branch above
    -- having just created an index whose dimension equals embs.dim
    ({ st1 with index := some { d := embs.dim, vectors := embs.rows } }, none)

/-- Squared Euclidean distance, the L2 metric of `IndexFlatL2`. -/
def sqDist (q v : List ℚ) : ℚ :=
  ((List.zip q v).map (fun p => (p.1 - p.2) ^ 2)).sum

/-- Comparison of scored slots by distance. -/
def distLe (a b : Int × ℚ) : Prop := a.2 ≤ b.2

instance : DecidableRel distLe := fun a b =>
  inferInstanceAs (Decidable (a.2 ≤ b.2))

instance : IsTotal (Int × ℚ) distLe := ⟨fun a b => le_total a.2 b.2⟩

instance : IsTrans (Int × ℚ) distLe := ⟨fun _ _ _ h h2 => le_trans h h2⟩

/-- The padding distance FAISS reports for missing neighbours
(`FLT_MAX`); its label is `-1`. -/
def padDistance : ℚ := 2 ^ 128

/-- Model of `IndexFlatL2.search` on one query: every stored vector is scored by
squared L2 distance to the query, the slots are listed nearest first,
the first `k` are returned, and short results are padded to exactly `k`
entries with label `-1`. -/
def faissSearch (vectors : List (List ℚ)) (q : List ℚ) (k : Nat) :
    List (Int × ℚ) :=
  let scored := vectors.enum.map (fun p => ((p.1 : Int), sqDist q p.2))
  let top := (List.insertionSort distLe scored).take k
  top ++ List.replicate (k - top.length) ((-1 : Int), padDistance)

/-- Embeds `FaissVectorStore.search`: empty or missing index short-circuits to
`[]`; otherwise the FAISS hits are filtered — any slot that is negative
or not below `len(self.metadata)` is skipped — and each surviving slot
is paired with its metadata record and distance. -/
def FaissStore.search (st : FaissStore) (q : List ℚ) (k : Nat) :
    List (Meta × ℚ) :=
  match st.index with
  | none => []
  | some idx =>
    if idx.vectors.length = 0 then []
    else
      (faissSearch idx.vectors q k).filterMap (fun p =>
        if h : 0 ≤ p.1 ∧ p.1.toNat < st.metadata.length then
          some (st.metadata.get ⟨p.1.toNat, h.2⟩, p.2)
        else none)

/-- Embeds `FaissVectorStore.load`, with the outcome of reading each artifact
supplied as an input (`none` models `FileNotFoundError`/`IOError`).  The
source assigns `self.index = faiss.read_index(...)` BEFORE opening the
metadata file, so a metadata read failure is caught only after the index
has been replaced; the metadata list is assigned last.  Returns the
state left behind and the Boolean result of the call. -/
def load (st : FaissStore) (indexFile : Option FaissIndex)
    (metadataFile : Option (List Meta)) : FaissStore × Bool :=
  match indexFile with
  | none => (st, false)
  | some idx =>
    match metadataFile with
    | none => ({ st with index := some idx }, false)
    | some m => ({ st with index := some idx, metadata := m }, true)

/-! ## Retriever (src/codepilot/engine/retriever.py) -/

/-- A raw search hit as returned by `FaissVectorStore.search`. -/
structure SearchHit where
  metadata : Meta
  distance : ℚ
deriving DecidableEq, Repr

/-- An enriched result: content, metadata, distance, relevance score. -/
structure RankedResult where
  content : Text
  metadata : Meta
  distance : ℚ
  relevance_score : ℚ
deriving DecidableEq, Repr

/-- The score transform of `Retriever._enrich_results` (line 79):
`1.0 / (1.0 + distance)`. -/
def relevance (d : ℚ) : ℚ := 1 / (1 + d)

/-- The file system as seen by `Retriever._get_content_from_metadata`:
for a path, `open(...).readlines()` when the file is readable (each line
keeping its trailing newline), `none` when opening or reading raises. -/
abbrev FileSys := List Char → Option (List Text)

def classStubPre : List Char := "class ".toList

def classStubMid : List Char :=
  ":\n    # Content not available - check file ".toList

def stubPost : List Char := "\n    pass".toList

def funcStubPre : List Char := "def ".toList

def funcStubMid : List Char :=
  "):\n    # Content not available - check file ".toList

def commaSpace : List Char := ", ".toList

def lparen : List Char := ['(']

def otherStubPre : List Char := "# Content from ".toList

def otherStubPost : List Char := " (unavailable in search results)".toList

/-- The terminal fallback chain of `_get_content_from_metadata` (lines
123-135): a synthetic class or function stub, or the generic
placeholder. -/
def contentStub (m : Meta) : Text :=
  if m.ty = classStr then
    classStubPre ++ m.name ++ classStubMid ++ m.file_path ++ stubPost
  else if m.ty = functionStr then
    funcStubPre ++ m.name ++ lparen ++ List.intercalate commaSpace m.arguments ++
      funcStubMid ++ m.file_path ++ stubPost
  else otherStubPre ++ m.file_path ++ otherStubPost

/-- Embeds `Retriever._get_content_from_metadata`: literal `content` key first;
then the `[start, end]` slice re-read from the file
(`''.join(lines[start-1:end])`), falling through to the stub chain when
the read raises; then the stubs. -/
def get_content_from_metadata (fs : FileSys) (m : Meta) : Text :=
  match m.content with
  | some c => c
  | none =>
    match m.line_range with
    | some r =>
      match fs m.file_path with
      | some fileLines =>
        (((fileLines.drop (r.1 - 1)).take (r.2 - (r.1 - 1)))).flatten
      | none => contentStub m
    | none => contentStub m

/-- Comparison of ranked results by descending relevance score. -/
def scoreGe (a b : RankedResult) : Prop :=
  b.relevance_score ≤ a.relevance_score

instance : DecidableRel scoreGe := fun a b =>
  inferInstanceAs (Decidable (b.relevance_score ≤ a.relevance_score))

instance : IsTotal RankedResult scoreGe :=
  ⟨fun a b => le_total b.relevance_score a.relevance_score⟩

instance : IsTrans RankedResult scoreGe :=
  ⟨fun _ _ _ h h2 => le_trans h2 h⟩

/-- Embeds `Retriever._enrich_results`: each hit is enriched with recovered
content and the score `1 / (1 + distance)`, then the list is sorted by
descending relevance score (Python's stable sort, modelled by a stable
insertion sort). -/
def enrich_results (fs : FileSys) (results : List SearchHit) :
    List RankedResult :=
  List.insertionSort scoreGe
    (results.map (fun r =>
      { content := get_content_from_metadata fs r.metadata,
        metadata := r.metadata, distance := r.distance,
        relevance_score := relevance r.distance }))

/-! ## Helper lemmas -/

theorem intercal_single (s a : List Char) : List.intercalate s [a] = a := by
  simp [List.intercalate]

theorem intercal_cons (s a : List Char) (t : List (List Char)) (h : t ≠ []) :
    List.intercalate s (a :: t) = a ++ s ++ List.intercalate s t := by
  cases t with
  | nil => exact absurd rfl h
  | cons b t2 => simp [List.intercalate, List.intersperse]

theorem intercal_append (s : List Char) (xs ys : List (List Char))
    (hx : xs ≠ []) (hy : ys ≠ []) :
    List.intercalate s (xs ++ ys) =
      List.intercalate s xs ++ s ++ List.intercalate s ys := by
  induction xs with
  | nil => exact absurd rfl hx
  | cons x xs ih =>
    cases xs with
    | nil =>
      rw [List.singleton_append, intercal_cons s x ys hy, intercal_single]
    | cons x2 xs2 =>
      rw [List.cons_append, intercal_cons s x ((x2 :: xs2) ++ ys) (by simp),
        intercal_cons s x (x2 :: xs2) (by simp), ih (by simp)]
      simp

theorem filterMap_eq_map_of_some {α β : Type} (f : α → Option β) (g : α → β)
    (l : List α) (h : ∀ x ∈ l, f x = some (g x)) :
    l.filterMap f = l.map g := by
  induction l with
  | nil => rfl
  | cons a t ih =>
    rw [List.filterMap_cons, h a (by simp), List.map_cons,
      ih (fun x hx => h x (by simp [hx]))]

theorem splitOn_ne_nil' (x : Char) (l : List Char) : l.splitOn x ≠ [] :=
  List.splitOnP_ne_nil _ l

/-! ## Shared concrete inputs used by witnesses and counterexamples -/

def exFilePath : List Char := "a.py".toList

def exMetaClass : Meta := baseMeta exFilePath classStr

def exDocClass : Doc := { content := "class A: pass".toList, metadata := exMetaClass }

/-! ## C1: add with a mismatched dimension -/

def c1Store : FaissStore :=
  { index := some { d := 2, vectors := [] }, metadata := [], dimension := 2 }

def c1Embs : NpMatrix := { dim := 3, rows := [[1, 2, 3]] }

/-- Claim C1 (code_bug evidence): on a store whose index has fixed
dimension 2 and holds 0 vectors and 0 metadata records, adding one
document with a 3-dimensional embedding fails with a dimension mismatch,
but afterwards the store holds 1 metadata record and still 0 vectors:
`add_documents` appends the metadata before the dimension check of the
underlying index add, so the failed call leaves the metadata count
changed and unequal to the vector count, contradicting the claim that
both counts are unchanged and equal. -/
theorem c1_dimension_mismatch_leaks_metadata :
    (add_documents c1Store [exDocClass] c1Embs).2 =
        some StoreErr.dimensionMismatch
    ∧ (add_documents c1Store [exDocClass] c1Embs).1.metadata.length = 1
    ∧ (add_documents c1Store [exDocClass] c1Embs).1.ntotal = 0
    ∧ c1Store.metadata.length = 0 ∧ c1Store.ntotal = 0 := by
  decide

/-! ## C3: parse failure yields a single raw-text unit -/

/-- Claim C3, amended: for every file whose text fails to parse, the
parser returns exactly one unit, of kind raw_text, whose text is the
entire file content and which is never dropped; however the fallback
metadata records no line range at all (the claimed
`start_line = 1, end_line = last line` is absent). -/
theorem c3_parse_failure_raw_text (fp : List Char) (content : Text) :
    (parse_file fp none content).length = 1
    ∧ ∀ d ∈ parse_file fp none content,
        d.content = content ∧ d.metadata.ty = rawTextStr ∧
          d.metadata.line_range = none := by
  refine ⟨rfl, ?_⟩
  intro d hd
  have : d = { content := content, metadata := baseMeta fp rawTextStr } := by
    simpa [parse_file] using hd
  subst this
  exact ⟨rfl, rfl, rfl⟩

def c3FilePath : List Char := "b.py".toList

def c3BadSource : Text := "x +".toList

def c3RawDoc : Doc :=
  { content := c3BadSource, metadata := baseMeta c3FilePath rawTextStr }

/-- Claim C3 counterexample: the claim as stated demands that the
fallback unit carry `start_line = 1` and `end_line = 1` (the source
`"x +"` has one line), but the returned metadata has no line range. -/
theorem c3_counterexample :
    ((parse_file c3FilePath none c3BadSource).map
        (fun d => d.metadata.line_range)) = [none]
    ∧ ((parse_file c3FilePath none c3BadSource).map
        (fun d => d.metadata.line_range)) ≠ [some (1, 1)] := by
  decide

/-- Witness for C3: the amended theorem applied at a concrete failing
source. -/
theorem c3_parse_failure_raw_text_witness :
    (parse_file c3FilePath none c3BadSource).length = 1
    ∧ c3RawDoc.content = c3BadSource :=
  ⟨(c3_parse_failure_raw_text c3FilePath c3BadSource).1,
    ((c3_parse_failure_raw_text c3FilePath c3BadSource).2 c3RawDoc
      (by decide)).1⟩

/-! ## C4: load failure semantics -/

/-- Claim C4, amended: a failed `load` (either artifact missing or
unreadable) always preserves the in-memory metadata sequence, but not
necessarily the index — when the index artifact loads and the metadata
artifact then fails, the index has already been replaced; and `load`
succeeds exactly when both artifacts load, with no check that their slot
counts agree. -/
theorem c4_load_spec (st : FaissStore) (indexFile : Option FaissIndex)
    (metadataFile : Option (List Meta)) :
    ((load st indexFile metadataFile).2 = false →
      (load st indexFile metadataFile).1.metadata = st.metadata)
    ∧ (indexFile = none → load st indexFile metadataFile = (st, false))
    ∧ ((load st indexFile metadataFile).2 = true ↔
        indexFile.isSome ∧ metadataFile.isSome) := by
  rcases indexFile with _ | idx
  · exact ⟨fun _ => rfl, fun _ => rfl, by simp [load]⟩
  · rcases metadataFile with _ | m
    · exact ⟨fun _ => rfl, by simp, by simp [load]⟩
    · exact ⟨by simp [load], by simp, by simp [load]⟩

def c4Store : FaissStore :=
  { index := some { d := 2, vectors := [[1, 1]] }, metadata := [exMetaClass],
    dimension := 2 }

def c4EmptyIdx : FaissIndex := { d := 2, vectors := [] }

def c4OneVecIdx : FaissIndex := { d := 2, vectors := [[1, 1]] }

/-- Claim C4 counterexample: loading with a readable index artifact but
a missing metadata artifact fails yet changes the in-memory state (the
index is replaced before the metadata read is attempted); and a load
whose two artifacts disagree on slot count (1 vector, 0 metadata
records) nevertheless succeeds. -/
theorem c4_counterexample :
    ((load c4Store (some c4EmptyIdx) none).2 = false
      ∧ (load c4Store (some c4EmptyIdx) none).1 ≠ c4Store)
    ∧ ((load c4Store (some c4OneVecIdx) (some [])).2 = true
      ∧ c4OneVecIdx.vectors.length ≠ ([] : List Meta).length) := by
  decide

/-- Witness for C4: the amended theorem applied with both artifacts
missing. -/
theorem c4_load_spec_witness :
    (load c4Store none none).1.metadata = c4Store.metadata :=
  (c4_load_spec c4Store none none).1 rfl

/-! ## C6: units that fit produce one whole chunk -/

/-- Claim C6: a unit whose text fits within `max_size` is returned as a
single chunk equal to the input, stamped `chunk_index = 0` and
`chunk_count = 1` (whatever its kind: the code and the text path both
short-circuit); and a Function unit within twice `max_size` likewise
stays whole. -/
theorem c6_small_unit_single_chunk (cs : Nat) (doc : Doc) :
    (doc.content.length ≤ cs →
      chunk_documents cs [doc] =
        [{ content := doc.content,
           metadata := { doc.metadata with
             chunk_index := some 0, total_chunks := some 1 } }])
    ∧ (doc.metadata.ty = functionStr → doc.content.length ≤ cs * 2 →
      chunk_documents cs [doc] =
        [{ content := doc.content,
           metadata := { doc.metadata with
             chunk_index := some 0, total_chunks := some 1 } }]) := by
  constructor
  · intro hlen
    by_cases hty : doc.metadata.ty = classStr ∨ doc.metadata.ty = functionStr
    · simp [chunk_documents, hty, chunk_code, hlen, List.enum, List.enumFrom]
    · simp [chunk_documents, hty, chunk_text, hlen, List.enum, List.enumFrom]
  · intro hty hlen
    by_cases hsmall : doc.content.length ≤ cs
    · simp [chunk_documents, hty, chunk_code, hsmall, List.enum, List.enumFrom]
    · simp [chunk_documents, hty, chunk_code, hsmall, hlen, List.enum,
        List.enumFrom]

def c6FuncDoc : Doc :=
  { content := "def f(): pass".toList,
    metadata := baseMeta exFilePath functionStr }

/-- Witness for C6: a 13-character function document stays whole both
under `max_size = 20` (the fits-within-`max_size` branch) and under
`max_size = 7` (13 > 7 but 13 ≤ 14, the function double allowance). -/
theorem c6_small_unit_single_chunk_witness :
    chunk_documents 20 [c6FuncDoc] =
      [{ content := c6FuncDoc.content,
         metadata := { c6FuncDoc.metadata with
           chunk_index := some 0, total_chunks := some 1 } }]
    ∧ chunk_documents 7 [c6FuncDoc] =
      [{ content := c6FuncDoc.content,
         metadata := { c6FuncDoc.metadata with
           chunk_index := some 0, total_chunks := some 1 } }] :=
  ⟨(c6_small_unit_single_chunk 20 c6FuncDoc).1 (by decide),
    (c6_small_unit_single_chunk 7 c6FuncDoc).2 rfl (by decide)⟩

/-! ## C9: fixed-size slicing -/

theorem slices_flatten (cs : Nat) (hcs : 1 ≤ cs) (n : Nat) :
    ∀ l : Text, l.length = n →
      ((List.range ((l.length + cs - 1) / cs)).map
        (fun i => (l.drop (i * cs)).take cs)).flatten = l := by
  induction n using Nat.strong_induction_on with
  | _ n ih =>
    intro l hl
    by_cases h0 : l.length = 0
    · have hnil : l = [] := List.length_eq_zero.mp h0
      subst hnil
      have : (0 + cs - 1) / cs = 0 := Nat.div_eq_of_lt (by omega)
      simp [this]
    · have h1 : 1 ≤ l.length := by omega
      have hm : (l.length + cs - 1) / cs = (l.length - 1) / cs + 1 := by
        rw [show l.length + cs - 1 = (l.length - 1) + cs by omega,
          Nat.add_div_right _ (by omega)]
      rw [hm, List.range_succ_eq_map, List.map_cons, List.map_map,
        List.flatten_cons, Nat.zero_mul, List.drop_zero]
      have hdrop : ∀ i : Nat,
          (fun i => (l.drop (i * cs)).take cs) (Nat.succ i) =
            (fun i => ((l.drop cs).drop (i * cs)).take cs) i := by
        intro i
        simp only [Nat.succ_mul, List.drop_drop]
        rw [Nat.add_comm]
      by_cases hle : l.length ≤ cs
      · have : (l.length - 1) / cs = 0 := Nat.div_eq_of_lt (by omega)
        rw [this]
        simp [List.take_eq_self_iff, hle]
      · have hlt : cs < l.length := by omega
        have hm2 : (l.length - 1) / cs = ((l.drop cs).length + cs - 1) / cs := by
          rw [List.length_drop,
            show l.length - cs + cs - 1 = (l.length - cs - 1) + cs by omega,
            Nat.add_div_right _ (by omega : 0 < cs),
            Nat.div_eq_sub_div (by omega : 0 < cs) (by omega : cs ≤ l.length - 1),
            show l.length - 1 - cs = l.length - cs - 1 by omega]
        have hmap : List.map ((fun i => (l.drop (i * cs)).take cs) ∘ Nat.succ)
            (List.range ((l.length - 1) / cs)) =
            List.map (fun i => ((l.drop cs).drop (i * cs)).take cs)
              (List.range ((l.length - 1) / cs)) := by
          apply List.map_congr_left
          intro a _
          simp only [Function.comp_apply, Nat.succ_mul, List.drop_drop]
          rw [Nat.add_comm]
        rw [hmap, hm2]
        rw [ih (l.drop cs).length (by rw [List.length_drop]; omega) (l.drop cs) rfl]
        exact List.take_append_drop cs l

/-- Claim C9: fixed-size slicing partitions the input exactly — the
concatenation of the slices in index order is the input (hence no
overlap and nothing dropped), every slice is at most `max_size`
characters, and every slice except possibly the final one is exactly
`max_size` characters. -/
theorem c9_simple_chunk_partition (cs : Nat) (hcs : 1 ≤ cs) (content : Text) :
    (simple_chunk_by_size cs content).flatten = content
    ∧ (∀ c ∈ simple_chunk_by_size cs content, c.length ≤ cs)
    ∧ (∀ i, i + 1 < (simple_chunk_by_size cs content).length →
        ((simple_chunk_by_size cs content).getD i []).length = cs) := by
  by_cases hle : content.length ≤ cs
  · refine ⟨?_, ?_, ?_⟩ <;> simp only [simple_chunk_by_size, if_pos hle]
    · simp
    · intro c hc
      simp only [List.mem_singleton] at hc
      subst hc; exact hle
    · intro i h
      simp at h
  · refine ⟨?_, ?_, ?_⟩ <;> simp only [simple_chunk_by_size, if_neg hle]
    · exact slices_flatten cs hcs content.length content rfl
    · intro c hc
      simp only [List.mem_map] at hc
      obtain ⟨i, _, rfl⟩ := hc
      simp [List.length_take]
    · intro i h
      simp only [List.length_map, List.length_range] at h
      have hb : i < (List.map (fun i => (content.drop (i * cs)).take cs)
          (List.range ((content.length + cs - 1) / cs))).length := by
        simp only [List.length_map, List.length_range]; omega
      rw [List.getD_eq_getElem _ _ hb, List.getElem_map, List.getElem_range,
        List.length_take, List.length_drop]
      have hm : (content.length + cs - 1) / cs = (content.length - 1) / cs + 1 := by
        rw [show content.length + cs - 1 = (content.length - 1) + cs by omega,
          Nat.add_div_right _ (by omega)]
      rw [hm] at h
      have hi : i + 1 ≤ (content.length - 1) / cs := by omega
      have hmul := Nat.mul_le_mul_right cs hi
      have hdiv := Nat.div_mul_le_self (content.length - 1) cs
      have h2 : (i + 1) * cs ≤ content.length - 1 := le_trans hmul hdiv
      have h3 : i * cs + cs ≤ content.length - 1 := by
        rw [Nat.succ_mul] at h2; omega
      omega

def c9Content : Text := "abcde".toList

/-- Witness for C9: slicing a 5-character text with `max_size = 2`. -/
theorem c9_simple_chunk_partition_witness :
    (simple_chunk_by_size 2 c9Content).flatten = c9Content :=
  (c9_simple_chunk_partition 2 (by decide) c9Content).1

/-! ## The code-splitting loop: invariants for C10 and C2 -/

/-- Every line of the input ends up in the output blocks, in order, after
the lines already flushed and the current chunk. -/
theorem codeLoop_flatten (cs : Nat) :
    ∀ (lines : List Line) (chunks : List (List Line)) (current : List Line)
      (size : Nat) (indent : Option Nat),
      (codeLoop cs lines chunks current size indent).flatten =
        chunks.flatten ++ current ++ lines := by
  intro lines
  induction lines with
  | nil =>
    intro chunks current size indent
    by_cases h : current = [] <;> simp [codeLoop, h]
  | cons line rest ih =>
    intro chunks current size indent
    simp only [codeLoop]
    split
    · rw [ih]; simp
    · split
      · rw [ih]; simp
      · rw [ih]; simp

/-- Every block the loop emits is a non-empty list of lines (chunks are
flushed only when the current chunk is non-empty). -/
theorem codeLoop_blocks_ne_nil (cs : Nat) :
    ∀ (lines : List Line) (chunks : List (List Line)) (current : List Line)
      (size : Nat) (indent : Option Nat),
      (∀ b ∈ chunks, b ≠ []) →
      ∀ b ∈ codeLoop cs lines chunks current size indent, b ≠ [] := by
  intro lines
  induction lines with
  | nil =>
    intro chunks current size indent hch b hb
    by_cases h : current = []
    · simp only [codeLoop, if_pos h] at hb
      exact hch b hb
    · simp only [codeLoop, if_neg h, List.mem_append, List.mem_singleton] at hb
      rcases hb with hb | hb
      · exact hch b hb
      · subst hb; exact h
  | cons line rest ih =>
    intro chunks current size indent hch b hb
    simp only [codeLoop] at hb
    split at hb
    · next hcond =>
      refine ih _ _ _ _ ?_ b hb
      intro b2 hb2
      rcases List.mem_append.mp hb2 with h2 | h2
      · exact hch b2 h2
      · simp only [List.mem_singleton] at h2; subst h2; exact hcond.2
    · split at hb
      · next hcond =>
        refine ih _ _ _ _ ?_ b hb
        intro b2 hb2
        rcases List.mem_append.mp hb2 with h2 | h2
        · exact hch b2 h2
        · simp only [List.mem_singleton] at h2; subst h2; exact hcond.2
      · exact ih _ _ _ _ hch b hb

/-- The loop emits at least one block whenever there is anything left to
place: a remaining line, a pending current chunk, or an emitted chunk. -/
theorem codeLoop_ne_nil (cs : Nat) :
    ∀ (lines : List Line) (chunks : List (List Line)) (current : List Line)
      (size : Nat) (indent : Option Nat),
      (lines ≠ [] ∨ current ≠ [] ∨ chunks ≠ []) →
      codeLoop cs lines chunks current size indent ≠ [] := by
  intro lines
  induction lines with
  | nil =>
    intro chunks current size indent h
    rcases h with h | h | h
    · exact absurd rfl h
    · simp [codeLoop, if_neg h]
    · by_cases h2 : current = [] <;> simp [codeLoop, h2, h]
  | cons line rest ih =>
    intro chunks current size indent _
    simp only [codeLoop]
    split
    · exact ih _ _ _ _ (Or.inr (Or.inl (by simp)))
    · split
      · exact ih _ _ _ _ (Or.inr (Or.inl (by simp)))
      · exact ih _ _ _ _ (Or.inr (Or.inl (by simp)))

/-- A line starting with `'@'`. -/
def isDecoratorLine (l : Line) : Bool := startsWith atStr l

theorem isBoundary_of_decorator {line : Line} {indent : Option Nat}
    (h : isDecoratorLine line = true) : isBoundary line indent = true := by
  simp only [isDecoratorLine] at h
  simp [isBoundary, h]

/-- In every block the loop emits, a decorator line can only be the
first line: whenever a decorator line is scanned, the boundary rule
flushes the current chunk first, so the decorator opens a fresh chunk. -/
theorem codeLoop_decorator_heads (cs : Nat) :
    ∀ (lines : List Line) (chunks : List (List Line)) (current : List Line)
      (size : Nat) (indent : Option Nat),
      (∀ b ∈ chunks, ∀ l ∈ b.drop 1, isDecoratorLine l = false) →
      (∀ l ∈ current.drop 1, isDecoratorLine l = false) →
      ∀ b ∈ codeLoop cs lines chunks current size indent,
        ∀ l ∈ b.drop 1, isDecoratorLine l = false := by
  intro lines
  induction lines with
  | nil =>
    intro chunks current size indent hch hcur b hb
    by_cases h : current = []
    · simp only [codeLoop, if_pos h] at hb
      exact hch b hb
    · simp only [codeLoop, if_neg h, List.mem_append, List.mem_singleton] at hb
      rcases hb with hb | hb
      · exact hch b hb
      · subst hb; exact hcur
  | cons line rest ih =>
    intro chunks current size indent hch hcur b hb
    simp only [codeLoop] at hb
    have hflushed : ∀ b2 ∈ chunks ++ [current], ∀ l ∈ b2.drop 1,
        isDecoratorLine l = false := by
      intro b2 hb2
      rcases List.mem_append.mp hb2 with h2 | h2
      · exact hch b2 h2
      · simp only [List.mem_singleton] at h2; subst h2; exact hcur
    split at hb
    · exact ih _ _ _ _ hflushed (by simp) b hb
    · split at hb
      · exact ih _ _ _ _ hflushed (by simp) b hb
      · next hnb hns =>
        refine ih _ _ _ _ hch ?_ b hb
        cases current with
        | nil => simp
        | cons c cur2 =>
          intro l hl
          simp only [List.cons_append, List.drop_one, List.tail_cons] at hl
          rcases List.mem_append.mp hl with h2 | h2
          · exact hcur l (by simpa using h2)
          · simp only [List.mem_singleton] at h2
            subst h2
            cases hdecb : isDecoratorLine l with
            | false => rfl
            | true => exact absurd ⟨isBoundary_of_decorator hdecb, by simp⟩ hnb

theorem intercalate_map_blocks (blocks : List (List Line))
    (h : ∀ b ∈ blocks, b ≠ []) :
    List.intercalate nl (blocks.map (List.intercalate nl)) =
      List.intercalate nl blocks.flatten := by
  induction blocks with
  | nil => rfl
  | cons b bs ih =>
    have hb : b ≠ [] := h b (by simp)
    have hbs : ∀ x ∈ bs, x ≠ [] := fun x hx => h x (by simp [hx])
    cases bs with
    | nil => simp [intercal_single]
    | cons b2 bs2 =>
      have hflat : (b2 :: bs2).flatten ≠ [] := by
        have : b2 ≠ [] := hbs b2 (by simp)
        cases b2 with
        | nil => exact absurd rfl this
        | cons x xs => simp
      rw [List.map_cons, intercal_cons _ _ _ (by simp), ih hbs]
      conv_rhs => rw [List.flatten_cons,
        intercal_append nl b (b2 :: bs2).flatten hb hflat]

/-- Claim C10: on every input, `_chunk_code` returns a non-empty chunk
list, and joining the chunks with a single newline between consecutive
chunks reproduces the input text exactly (every line placed once, in
order; the defensive size-slicing fallback is unreachable because the
loop always emits at least one chunk). -/
theorem c10_chunk_code_partition (cs : Nat) (ty : List Char) (content : Text) :
    chunk_code cs ty content ≠ []
    ∧ List.intercalate nl (chunk_code cs ty content) = content := by
  unfold chunk_code
  split
  · exact ⟨by simp, intercal_single nl content⟩
  · split
    · exact ⟨by simp, intercal_single nl content⟩
    · have hlines : content.splitOn nlChar ≠ [] := splitOn_ne_nil' nlChar content
      have hblocks : chunkCodeBlocks cs content ≠ [] :=
        codeLoop_ne_nil cs (content.splitOn nlChar) [] [] 0 none
          (Or.inl hlines)
      have hmapne : (chunkCodeBlocks cs content).map (List.intercalate nl) ≠ [] := by
        simpa using hblocks
      rw [if_neg hmapne]
      refine ⟨hmapne, ?_⟩
      have hbnn : ∀ b ∈ chunkCodeBlocks cs content, b ≠ [] :=
        codeLoop_blocks_ne_nil cs (content.splitOn nlChar) [] [] 0 none
          (by simp)
      rw [intercalate_map_blocks (chunkCodeBlocks cs content) hbnn]
      have hflat : (chunkCodeBlocks cs content).flatten = content.splitOn nlChar := by
        simpa [chunkCodeBlocks] using
          codeLoop_flatten cs (content.splitOn nlChar) [] [] 0 none
      rw [hflat]
      exact List.intercalate_splitOn content nlChar

/-! ## C2: decorators and chunk boundaries -/

/-- Claim C2, amended: in the boundary-aware splitting of a Class unit,
a decorator line at the unit's base column (a line starting with `'@'`)
always begins a new chunk — it is never preceded inside its chunk by
another line; but a decorator is NOT guaranteed to share its chunk with
the `def`/`class` line that follows it (see the counterexample), and an
indented decorator line receives no boundary at all. -/
theorem c2_decorator_opens_chunk (cs : Nat) (content : Text) :
    ∀ b ∈ chunkCodeBlocks cs content, ∀ l ∈ b.drop 1,
      isDecoratorLine l = false :=
  codeLoop_decorator_heads cs (content.splitOn nlChar) [] [] 0 none
    (by simp) (by simp)

def c2Content : Text := "@d\ndef f(): pass".toList

def c2DecLine : Line := "@d".toList

def c2DefLine : Line := "def f(): pass".toList

/-- Claim C2 counterexample: splitting the 16-character Class text
`"@d\ndef f(): pass"` with `max_size = 10` puts the decorator line and
the immediately following `def` line in two different chunks — the `def`
line at the base indent forces a boundary that flushes the decorator
into a chunk of its own, so the decorator is not the first line of the
chunk containing its `def`. -/
theorem c2_counterexample :
    chunk_code 10 classStr c2Content = [c2DecLine, c2DefLine]
    ∧ ∀ c ∈ chunk_code 10 classStr c2Content,
        ¬(c2DecLine ∈ c.splitOn nlChar ∧ c2DefLine ∈ c.splitOn nlChar) := by
  decide

def c2WitnessContent : Text := "a\nb".toList

/-- Witness for C2 (amended): in the block `["a", "b"]` produced for the
two-line input, the non-head line `"b"` is not a decorator line. -/
theorem c2_decorator_opens_chunk_witness :
    isDecoratorLine ['b'] = false :=
  c2_decorator_opens_chunk 100 c2WitnessContent [['a'], ['b']] (by decide)
    ['b'] (by decide)

/-! ## C7: relevance scores and ranking -/

/-- Claim C7: every hit with distance `d ≥ 0` receives relevance score
`1 / (1 + d)`, which lies in `(0, 1]`; the score is strictly decreasing
in the distance; the enriched results are sorted by descending score;
and in particular distances `1/2` and `2` receive scores `2/3` and `1/3`,
with the `2/3` result first. -/
theorem c7_relevance_ranking (fs : FileSys) (results : List SearchHit)
    (hd : ∀ r ∈ results, 0 ≤ r.distance) :
    (∀ e ∈ enrich_results fs results,
      e.relevance_score = relevance e.distance ∧
        0 < e.relevance_score ∧ e.relevance_score ≤ 1)
    ∧ List.Sorted scoreGe (enrich_results fs results)
    ∧ (∀ d₁ d₂ : ℚ, 0 ≤ d₁ → d₁ < d₂ → relevance d₂ < relevance d₁)
    ∧ relevance (1 / 2) = 2 / 3 ∧ relevance 2 = 1 / 3 := by
  refine ⟨?_, List.sorted_insertionSort scoreGe _, ?_, by norm_num [relevance],
    by norm_num [relevance]⟩
  · intro e he
    unfold enrich_results at he
    rw [(List.perm_insertionSort scoreGe _).mem_iff] at he
    simp only [List.mem_map] at he
    obtain ⟨r, hr, rfl⟩ := he
    have hge := hd r hr
    have h0 : (0 : ℚ) < 1 + r.distance := by linarith
    refine ⟨rfl, div_pos one_pos h0, (div_le_one h0).mpr (by linarith)⟩
  · intro d₁ d₂ h1 h12
    exact div_lt_div_of_pos_left one_pos (by linarith) (by linarith)

def c7MetaA : Meta := { baseMeta exFilePath classStr with content := some ['A'] }

def c7MetaB : Meta := { baseMeta exFilePath classStr with content := some ['B'] }

def c7Hits : List SearchHit :=
  [{ metadata := c7MetaA, distance := 2 },
   { metadata := c7MetaB, distance := 1 / 2 }]

def c7NoFs : FileSys := fun _ => none

/-- Witness for C7: on two hits at distances 2 and 1/2 the enrichment is
sorted by descending score, and the scores come out as 2/3 and 1/3. -/
theorem c7_relevance_ranking_witness :
    List.Sorted scoreGe (enrich_results c7NoFs c7Hits)
    ∧ relevance (1 / 2) = 2 / 3 ∧ relevance 2 = 1 / 3 :=
  have hd : ∀ r ∈ c7Hits, 0 ≤ r.distance := by
    intro r hr
    simp only [c7Hits, List.mem_cons, List.mem_singleton,
      List.not_mem_nil, or_false] at hr
    rcases hr with rfl | rfl <;> norm_num
  ⟨(c7_relevance_ranking c7NoFs c7Hits hd).2.1,
    (c7_relevance_ranking c7NoFs c7Hits hd).2.2.2⟩

/-! ## C5: search result count, order, and slot filtering -/

theorem mem_scored_bounds (vectors : List (List ℚ)) (q : List ℚ)
    (p : Int × ℚ)
    (hp : p ∈ vectors.enum.map (fun p => ((p.1 : Int), sqDist q p.2))) :
    0 ≤ p.1 ∧ p.1 < (vectors.length : Int) := by
  simp only [List.mem_map] at hp
  obtain ⟨⟨i, v⟩, hiv, rfl⟩ := hp
  have hb := List.mem_enumFrom hiv
  simp only [Nat.zero_le, true_and, Nat.zero_add] at hb
  dsimp only
  exact ⟨Int.ofNat_nonneg i, by exact_mod_cast hb.1⟩

/-- Claim C5: on a store whose index holds `n` vectors with a metadata
list of matching length, `search q k` returns exactly `min n k` results;
the results are ordered by ascending (squared Euclidean) distance; and
on an empty index the result is the empty list.  The `-1` padding slots
produced by the underlying FAISS search are discarded by the filter and
never propagated. -/
theorem c5_search_results (st : FaissStore) (idx : FaissIndex) (q : List ℚ)
    (k : Nat) (hidx : st.index = some idx)
    (hinv : st.metadata.length = idx.vectors.length) (hk : 1 ≤ k) :
    (st.search q k).length = min idx.vectors.length k
    ∧ List.Pairwise (fun a b : Meta × ℚ => a.2 ≤ b.2) (st.search q k)
    ∧ (idx.vectors = [] → st.search q k = []) := by
  have hsearch : st.search q k =
      if idx.vectors.length = 0 then []
      else (faissSearch idx.vectors q k).filterMap (fun p =>
        if h : 0 ≤ p.1 ∧ p.1.toNat < st.metadata.length then
          some (st.metadata.get ⟨p.1.toNat, h.2⟩, p.2)
        else none) := by
    unfold FaissStore.search
    rw [hidx]
  rw [hsearch]
  by_cases hz : idx.vectors.length = 0
  · have hnil : idx.vectors = [] := List.length_eq_zero.mp hz
    simp [hz, hnil]
  · rw [if_neg hz]
    unfold faissSearch
    set scored := idx.vectors.enum.map (fun p => ((p.1 : Int), sqDist q p.2))
      with hscored
    set sorted := List.insertionSort distLe scored with hsorted
    set top := sorted.take k with htop
    have hsortlen : sorted.length = idx.vectors.length := by
      rw [hsorted, List.length_insertionSort, hscored, List.length_map,
        List.enum_length]
    have htopmem : ∀ p ∈ top, 0 ≤ p.1 ∧ p.1.toNat < st.metadata.length := by
      intro p hp
      have hmem : p ∈ scored := by
        rw [htop, hsorted] at hp
        exact (List.perm_insertionSort distLe scored).mem_iff.mp
          (List.take_subset k _ hp)
      have hb := mem_scored_bounds idx.vectors q p (hscored ▸ hmem)
      exact ⟨hb.1, by rw [hinv]; exact (Int.toNat_lt hb.1).mpr hb.2⟩
    have hfm : (top.filterMap (fun p : Int × ℚ =>
        if h : 0 ≤ p.1 ∧ p.1.toNat < st.metadata.length then
          some (st.metadata.get ⟨p.1.toNat, h.2⟩, p.2)
        else none)) =
        top.map (fun p =>
          (st.metadata.getD p.1.toNat (baseMeta [] []), p.2)) := by
      apply filterMap_eq_map_of_some
      intro p hp
      have hc := htopmem p hp
      simp only [dif_pos hc, List.get_eq_getElem,
        List.getD_eq_getElem _ _ hc.2]
    have hpadnone : ∀ x ∈ List.replicate (k - top.length)
        ((-1 : Int), padDistance), (fun p : Int × ℚ =>
          if h : 0 ≤ p.1 ∧ p.1.toNat < st.metadata.length then
            some (st.metadata.get ⟨p.1.toNat, h.2⟩, p.2)
          else none) x = none := by
      intro x hx
      have hneg : ¬(0 ≤ ((-1 : Int), padDistance).1 ∧
          ((-1 : Int), padDistance).1.toNat < st.metadata.length) := by
        intro hcon
        exact absurd hcon.1 (by norm_num)
      simp only [List.eq_of_mem_replicate hx, dif_neg hneg]
    rw [List.filterMap_append, hfm, List.filterMap_eq_nil_iff.mpr hpadnone,
      List.append_nil]
    refine ⟨?_, ?_, ?_⟩
    · rw [List.length_map, htop, List.length_take, hsortlen, Nat.min_comm]
    · have hs : List.Pairwise distLe sorted :=
        List.sorted_insertionSort distLe scored
      have hst : List.Pairwise distLe top :=
        hs.sublist (List.take_sublist k sorted)
      exact hst.map _ (fun a b hab => hab)
    · intro hnil
      exact absurd (by simp [hnil]) hz

def c5Store : FaissStore :=
  { index := some { d := 1, vectors := [[2]] }, metadata := [exMetaClass],
    dimension := 1 }

/-- Witness for C5: a one-vector store searched with `k = 2` returns
`min 1 2 = 1` result. -/
theorem c5_search_results_witness :
    (c5Store.search [0] 2).length = min 1 2 :=
  (c5_search_results c5Store { d := 1, vectors := [[2]] } [0] 2 rfl rfl
    (by decide)).1

/-! ## C8: which nodes become units -/

mutual
/-- Number of class definitions anywhere in a node's subtree, the node
included. -/
def classCount : PyNode → Nat
  | .classDef _ _ _ _ _ body => 1 + classCounts body
  | .funcDef _ _ _ _ _ body => classCounts body
  | .other _ _ body => classCounts body
/-- Number of class definitions anywhere under a statement list. -/
def classCounts : List PyNode → Nat
  | [] => 0
  | n :: rest => classCount n + classCounts rest
end

/-- Total class count over a queue of pending walk entries. -/
def qClassCount : List (PyNode × Bool) → Nat
  | [] => 0
  | p :: rest => classCount p.1 + qClassCount rest

theorem qClassCount_append (a b : List (PyNode × Bool)) :
    qClassCount (a ++ b) = qClassCount a + qClassCount b := by
  induction a with
  | nil => simp [qClassCount]
  | cons p rest ih => simp [qClassCount, ih]; omega

theorem qClassCount_map_false (l : List PyNode) :
    qClassCount (l.map (fun c => (c, false))) = classCounts l := by
  induction l with
  | nil => rfl
  | cons n rest ih => simp [qClassCount, classCounts, ih]

/-- Whether a document is a class unit. -/
def isClassDoc (d : Doc) : Bool := d.metadata.ty == classStr

/-- Whether a document is a function unit. -/
def isFunctionDoc (d : Doc) : Bool := d.metadata.ty == functionStr

/-- The document a walk entry contributes to the function units: only a
function definition whose parent is the module. -/
def topFunDoc (fp : List Char) (content : Text) : PyNode × Bool → Option Doc
  | (.funcDef name l e args ds body, true) =>
    some (process_function fp content name l e args ds body)
  | _ => none

theorem emit_classCount (fp : List Char) (content : Text) (n : PyNode)
    (topLevel : Bool) :
    (emitDocs fp content n topLevel).countP isClassDoc
      + classCounts (nodeChildren n) = classCount n := by
  cases n with
  | classDef name l e bases ds body =>
    simp [emitDocs, List.countP_cons, isClassDoc, process_class,
      baseMeta, classCount, nodeChildren]
  | funcDef name l e args ds body =>
    cases topLevel with
    | false => simp [emitDocs, classCount, nodeChildren]
    | true =>
      have hne : (functionStr == classStr) = false := by decide
      simp [emitDocs, List.countP_cons, isClassDoc, process_function,
        baseMeta, classCount, nodeChildren, hne]
  | other l e body => simp [emitDocs, classCount, nodeChildren]

theorem emit_filter_function (fp : List Char) (content : Text) (n : PyNode)
    (topLevel : Bool) :
    (emitDocs fp content n topLevel).filter isFunctionDoc =
      ((topFunDoc fp content (n, topLevel)).map (fun d => [d])).getD [] := by
  cases n with
  | classDef name l e bases ds body =>
    have hne : isFunctionDoc (process_class fp content name l e bases ds body)
        = false := by
      simp [isFunctionDoc, process_class, baseMeta]
      decide
    simp [emitDocs, topFunDoc, List.filter_cons, hne]
  | funcDef name l e args ds body =>
    cases topLevel with
    | false => simp [emitDocs, topFunDoc]
    | true =>
      have hyes : isFunctionDoc (process_function fp content name l e args ds body)
          = true := by
        simp [isFunctionDoc, process_function, baseMeta]
      simp [emitDocs, topFunDoc, List.filter_cons, hyes]
  | other l e body => simp [emitDocs, topFunDoc]

theorem topFunDoc_map_false (fp : List Char) (content : Text)
    (l : List PyNode) :
    (l.map (fun c => (c, false))).filterMap (topFunDoc fp content) = [] := by
  induction l with
  | nil => rfl
  | cons n rest ih =>
    have hnone : topFunDoc fp content (n, false) = none := by
      cases n <;> rfl
    simp [List.filterMap_cons, hnone, ih]

theorem walkCollect_classCount (fp : List Char) (content : Text)
    (q : List (PyNode × Bool)) :
    (walkCollect fp content q).countP isClassDoc = qClassCount q := by
  match q with
  | [] => simp [walkCollect, qClassCount]
  | (n, topLevel) :: rest =>
    rw [walkCollect, List.countP_append,
      walkCollect_classCount fp content
        (rest ++ (nodeChildren n).map (fun c => (c, false))),
      qClassCount_append, qClassCount_map_false]
    have h := emit_classCount fp content n topLevel
    simp only [qClassCount]
    omega
termination_by queueSize q
decreasing_by
  simp only [queueSize, queueSize_append, queueSize_map_false]
  have := nodeSize_eq_children n
  omega

theorem walkCollect_functionDocs (fp : List Char) (content : Text)
    (q : List (PyNode × Bool)) :
    (walkCollect fp content q).filter isFunctionDoc =
      q.filterMap (topFunDoc fp content) := by
  match q with
  | [] => simp [walkCollect]
  | (n, topLevel) :: rest =>
    rw [walkCollect, List.filter_append,
      walkCollect_functionDocs fp content
        (rest ++ (nodeChildren n).map (fun c => (c, false))),
      List.filterMap_append, topFunDoc_map_false, List.append_nil,
      emit_filter_function, List.filterMap_cons]
    cases h : topFunDoc fp content (n, topLevel) <;> simp [h]
termination_by queueSize q
decreasing_by
  simp only [queueSize, queueSize_append, queueSize_map_false]
  have := nodeSize_eq_children n
  omega

theorem qClassCount_map_true (l : List PyNode) :
    qClassCount (l.map (fun c => (c, true))) = classCounts l := by
  induction l with
  | nil => rfl
  | cons n rest ih => simp [qClassCount, classCounts, ih]

/-- Claim C8: for every successfully parsed module, the parser emits
exactly one class unit per class definition at any nesting depth (the
class-unit count equals the total class-definition count of the tree),
and the function units are exactly the processed documents of the
function definitions appearing directly in the module body, in order —
functions nested inside a class or another function contribute none. -/
theorem c8_emitted_units (fp : List Char) (content : Text) (m : PyModule) :
    (parse_file fp (some m) content).countP isClassDoc = classCounts m.body
    ∧ (parse_file fp (some m) content).filter isFunctionDoc =
        m.body.filterMap (fun n => topFunDoc fp content (n, true)) := by
  constructor
  · rw [show parse_file fp (some m) content =
        walkCollect fp content (m.body.map (fun n => (n, true))) from rfl,
      walkCollect_classCount, qClassCount_map_true]
  · rw [show parse_file fp (some m) content =
        walkCollect fp content (m.body.map (fun n => (n, true))) from rfl,
      walkCollect_functionDocs, List.filterMap_map]
    rfl

end CodePilot
